import Mathlib

/-!
Shallow embedding of the `customerimporter` Go package
(`internal/customerimporter/interview.go`) and proofs of the specification
claims about it.

Modelling conventions:
- Go strings are Lean `String`s; character-level work goes through `String.data`.
- Fallible Go functions returning `(T, error)` become `Except String T`.
- The filesystem is an oracle `fileExists : String → Bool` standing for
  `os.Stat`/`os.IsNotExist`, and the opened CSV file is a list of the results
  the `csv.Reader` would produce at the parse level, each `Except String (List String)`.
  The reader's own field-count enforcement (`csv.ErrFieldCount` for rows whose
  field count differs from the header's) is modelled explicitly by `readerRead`.
- The two-goroutine pipeline in `GetDomainCounts` (producer: read + validate,
  consumer: extract + aggregate, connected by an unbuffered FIFO channel with a
  single consumer owning the map) computes, in every interleaving, the same
  result as the sequential composition of the two stages; the embedding is that
  sequential composition.
- The Go `map[string]int` is modelled as an association list updated in place,
  which preserves key uniqueness; `sort.Slice` (an arbitrary comparison sort,
  unspecified on ties) is modelled by `List.insertionSort` with the same
  comparator (count descending); every claim proved about the sort holds for
  any comparison sort with this comparator.
-/

/-- Decidable equality for `Except`, used to evaluate results of the embedded
fallible functions on concrete inputs. -/
instance {ε α : Type} [DecidableEq ε] [DecidableEq α] : DecidableEq (Except ε α) := fun a b =>
  match a, b with
  | Except.ok x, Except.ok y =>
    if h : x = y then isTrue (by rw [h]) else isFalse (by intro hh; cases hh; exact h rfl)
  | Except.error x, Except.error y =>
    if h : x = y then isTrue (by rw [h]) else isFalse (by intro hh; cases hh; exact h rfl)
  | Except.ok _, Except.error _ => isFalse (by intro hh; cases hh)
  | Except.error _, Except.ok _ => isFalse (by intro hh; cases hh)

/-- Embeds the Go struct `customerImporter`: a CSV file path plus the name of
the email field. -/
structure customerImporter where
  csvFilePath : String
  emailFieldName : String
deriving DecidableEq, Repr

/-- Embeds the Go struct `emailDomain`: a domain together with the number of
customers whose email address uses it. -/
structure emailDomain where
  Domain : String
  CustomerCount : Nat
deriving DecidableEq, Repr

/-- Character class `[a-zA-Z0-9._%+-]` of the local part of the email regex
`^[a-zA-Z0-9._%+-]+@[a-zA-Z0-9.-]+\.[a-zA-Z]{2,}$` in `isValidEmail`. -/
def inLocalClass (c : Char) : Bool :=
  c.isAlpha || c.isDigit || c == '.' || c == '_' || c == '%' || c == '+' || c == '-'

/-- Character class `[a-zA-Z0-9.-]` of the domain part of the email regex. -/
def inDomainClass (c : Char) : Bool :=
  c.isAlpha || c.isDigit || c == '.' || c == '-'

/-- Matcher for the regex fragment `[a-zA-Z0-9.-]*\.[a-zA-Z]{2,}$`: zero or
more domain-class characters, a literal dot, then at least two letters running
to the end. -/
def matchDomainEnd : List Char → Bool
  | [] => false
  | c :: rest =>
    (c == '.' && decide (2 ≤ rest.length) && rest.all Char.isAlpha)
      || (inDomainClass c && matchDomainEnd rest)

/-- Matcher for the regex fragment `[a-zA-Z0-9.-]+\.[a-zA-Z]{2,}$` (everything
after the `@`). -/
def matchAfterAt : List Char → Bool
  | [] => false
  | c :: rest => inDomainClass c && matchDomainEnd rest

/-- Matcher for `[a-zA-Z0-9._%+-]*@[a-zA-Z0-9.-]+\.[a-zA-Z]{2,}$`: the tail of
the email once at least one local-class character has been consumed. -/
def matchLocalTail : List Char → Bool
  | [] => false
  | c :: rest =>
    (c == '@' && matchAfterAt rest) || (inLocalClass c && matchLocalTail rest)

/-- Embeds Go `isValidEmail`: whether the string matches the anchored regex
`^[a-zA-Z0-9._%+-]+@[a-zA-Z0-9.-]+\.[a-zA-Z]{2,}$`. The hand-rolled matcher
decides membership in the regex language; its characterisation is proved in
the claim about the validator. -/
def isValidEmail (email : String) : Bool :=
  match email.data with
  | [] => false
  | c :: rest => inLocalClass c && matchLocalTail rest

/-- Embeds Go `strings.Split` for a one-character separator: the list of
maximal separator-free chunks, with empty chunks kept. -/
def splitOnChar (sep : Char) : List Char → List (List Char)
  | [] => [[]]
  | c :: rest =>
    if c == sep then [] :: splitOnChar sep rest
    else
      match splitOnChar sep rest with
      | [] => [[c]]
      | chunk :: chunks => (c :: chunk) :: chunks

/-- Embeds Go `extractEmailDomain`: split on `@`; if that yields exactly two
parts return the second, otherwise report an extraction error. -/
def extractEmailDomain (email : String) : Except String String :=
  match splitOnChar '@' email.data with
  | [_, domainPart] => Except.ok (String.mk domainPart)
  | _ => Except.error ("unable to extract domain from email: " ++ email)

/-- Helper for `indexOf`, carrying the current index of the Go `for i, v`
loop. -/
def indexOfAux (value : String) : List String → Nat → Int
  | [], _ => -1
  | v :: rest, i => if v == value then (i : Int) else indexOfAux value rest (i + 1)

/-- Embeds Go `indexOf`: the index of the first occurrence of `value` in
`slice`, or `-1` when absent. -/
def indexOf (slice : List String) (value : String) : Int :=
  indexOfAux value slice 0

/-- Embeds one `reader.Read()` call after the header: a parse-level result is
passed through, and a parsed record whose field count differs from the
header's is turned into a `csv.ErrFieldCount`-style error, exactly as
`encoding/csv` does with its default `FieldsPerRecord` behaviour. -/
def readerRead (expected : Nat) (raw : Except String (List String)) :
    Except String (List String) :=
  match raw with
  | Except.error e => Except.error e
  | Except.ok record =>
    if record.length = expected then Except.ok record
    else Except.error "record on line: wrong number of fields"

/-- Functional meaning of the producer goroutine of `GetDomainCounts`: the
emails sent over the channel, in order. A row whose read errors is logged and
skipped; a row whose target field fails `isValidEmail` is logged and skipped;
otherwise the target field is forwarded. -/
def collectValidEmails (emailIndex expected : Nat) :
    List (Except String (List String)) → List String
  | [] => []
  | raw :: rest =>
    match readerRead expected raw with
    | Except.error _ => collectValidEmails emailIndex expected rest
    | Except.ok record =>
      let email := record.getD emailIndex ""
      if isValidEmail email then email :: collectValidEmails emailIndex expected rest
      else collectValidEmails emailIndex expected rest

/-- Embeds the Go map update `emailDomainCounts[domain]++` on the association
list model: bump the existing entry, or append a new entry with count 1. -/
def incrCount : List (String × Nat) → String → List (String × Nat)
  | [], k => [(k, 1)]
  | (k', v) :: rest, k =>
    if k' == k then (k', v + 1) :: rest else (k', v) :: incrCount rest k

/-- Functional meaning of the consumer goroutine of `GetDomainCounts`: for
each received email, extract its domain; on an extraction error log and skip,
otherwise increment the domain's count. -/
def aggregateDomains : List String → List (String × Nat) → List (String × Nat)
  | [], m => m
  | e :: rest, m =>
    match extractEmailDomain e with
    | Except.error _ => aggregateDomains rest m
    | Except.ok d => aggregateDomains rest (incrCount m d)

/-- Comparator of `sort.Slice` in `sortEmailDomainsByCount`, as the
corresponding non-strict order: `a` may precede `b` when
`a.CustomerCount ≥ b.CustomerCount`. -/
def countDescOrder (a b : emailDomain) : Prop :=
  b.CustomerCount ≤ a.CustomerCount

instance : DecidableRel countDescOrder := fun a b =>
  Nat.decLe b.CustomerCount a.CustomerCount

instance : IsTotal emailDomain countDescOrder :=
  ⟨fun a b => Nat.le_total b.CustomerCount a.CustomerCount⟩

instance : IsTrans emailDomain countDescOrder :=
  ⟨fun _ _ _ hab hbc => Nat.le_trans hbc hab⟩

/-- Embeds Go `sortEmailDomainsByCount`: turn the aggregate map into
`emailDomain` values and sort them with the comparator of `sort.Slice`,
customer count descending. -/
def sortEmailDomainsByCount (m : List (String × Nat)) : List emailDomain :=
  (m.map fun kv => { Domain := kv.1, CustomerCount := kv.2 }).insertionSort countDescOrder

/-- Embeds Go `strings.HasSuffix`: whether `suffix` is a suffix of `s`. -/
def hasSuffix (s suffix : String) : Bool :=
  suffix.data.isSuffixOf s.data

/-- Error text of `NewCustomerImporter` for a path without the `.csv`
extension. -/
def errNotCsv (csvFilePath : String) : String :=
  "invalid file path: " ++ csvFilePath ++ ", expecting a '.csv' file"

/-- Error text of `NewCustomerImporter` for a path that does not exist. -/
def errNoFile (csvFilePath : String) : String :=
  "the file does not exist at the specified path: " ++ csvFilePath

/-- Error text of `NewCustomerImporter` for an empty email field name. -/
def errEmptyField : String :=
  "the email field name is empty"

/-- Embeds Go `NewCustomerImporter`. The filesystem is the oracle
`fileExists` (true when `os.Stat` does not report `IsNotExist`). The
constructor never touches the file contents: its type has no access to them,
matching the Go code, which only calls `os.Stat`. -/
def NewCustomerImporter (fileExists : String → Bool)
    (csvFilePath emailFieldName : String) : Except String customerImporter :=
  if !(hasSuffix csvFilePath ".csv") then
    Except.error (errNotCsv csvFilePath)
  else if !(fileExists csvFilePath) then
    Except.error (errNoFile csvFilePath)
  else if emailFieldName == "" then
    Except.error errEmptyField
  else
    Except.ok { csvFilePath := csvFilePath, emailFieldName := emailFieldName }

/-- Embeds Go `GetDomainCounts`. `openResult` is the outcome of
`os.Open` + CSV decoding: an open error, or the list of parse-level `Read`
results (first element the header row). An empty list is `io.EOF` on the
header read. After locating the email field in the header the two-stage
pipeline runs; its functional meaning is
`aggregateDomains ∘ collectValidEmails`, and the aggregate is sorted by
count descending. -/
def GetDomainCounts (importer : customerImporter)
    (openResult : Except String (List (Except String (List String)))) :
    Except String (List emailDomain) :=
  match openResult with
  | Except.error e =>
    Except.error ("failed to open the file " ++ importer.csvFilePath ++ ": " ++ e)
  | Except.ok reads =>
    match reads with
    | [] => Except.error "failed to read the headers row from the CSV file: EOF"
    | headerResult :: rows =>
      match headerResult with
      | Except.error e =>
        Except.error ("failed to read the headers row from the CSV file: " ++ e)
      | Except.ok fileHeaders =>
        let emailIndex := indexOf fileHeaders importer.emailFieldName
        if emailIndex = -1 then
          Except.error ("failed to find the field '" ++ importer.emailFieldName
            ++ "' in the headers")
        else
          Except.ok (sortEmailDomainsByCount
            (aggregateDomains
              (collectValidEmails emailIndex.toNat fileHeaders.length rows) []))

/-- Specification-side predicate for the email validator, read off the words
of the spec: one or more local-class characters, a single `@`, one or more
domain-class characters, a literal dot, then two or more letters. -/
def validEmailSpec (s : String) : Prop :=
  ∃ l d t : List Char,
    s.data = l ++ '@' :: (d ++ '.' :: t) ∧
    l ≠ [] ∧ (∀ c ∈ l, inLocalClass c = true) ∧
    d ≠ [] ∧ (∀ c ∈ d, inDomainClass c = true) ∧
    2 ≤ t.length ∧ (∀ c ∈ t, c.isAlpha = true)

/-- Specification-side measure: whether a raw row is a data row the reader
accepts whose target field passes the email validator. -/
def rowHasValidEmail (emailIndex expected : Nat)
    (raw : Except String (List String)) : Bool :=
  match readerRead expected raw with
  | Except.error _ => false
  | Except.ok record => isValidEmail (record.getD emailIndex "")

/-- Specification-side measure: the number of data rows whose target field
holds a validator-accepted string. -/
def countValidRows (emailIndex expected : Nat)
    (rows : List (Except String (List String))) : Nat :=
  (rows.filter (rowHasValidEmail emailIndex expected)).length

/-- Sum of the customer counts of a result sequence. -/
def sumCounts (l : List emailDomain) : Nat :=
  (l.map emailDomain.CustomerCount).sum

/-- Sum of the values of the aggregate map. -/
def sumVals (m : List (String × Nat)) : Nat :=
  (m.map Prod.snd).sum

example : isValidEmail "bortiz1@example.com" = true := by decide
example : isValidEmail "invalid_email" = false := by decide
example : isValidEmail "invalid.email.domain.com" = false := by decide
example : isValidEmail "a@b@c.com" = false := by decide
example : isValidEmail "a@b.co" = true := by decide
example : isValidEmail "a@b.c" = false := by decide
example : extractEmailDomain "bortiz1@example.com" = Except.ok "example.com" := by decide
example : (extractEmailDomain "no-at-sign").isOk = false := by decide
example : indexOf ["first_name", "email"] "email" = 1 := by decide
example : indexOf ["first_name", "email"] "gender" = -1 := by decide
example :
    sortEmailDomainsByCount [("domain1", 3), ("domain2", 1), ("domain3", 5), ("domain4", 2)]
      = [⟨"domain3", 5⟩, ⟨"domain1", 3⟩, ⟨"domain4", 2⟩, ⟨"domain2", 1⟩] := by decide
example :
    GetDomainCounts ⟨"customers.csv", "email"⟩
      (Except.ok [Except.ok ["first_name", "last_name", "email", "gender", "ip_address"],
        Except.ok ["Mildred", "Hernandez", "invalid_email", "Female", "38.194.51.128"],
        Except.ok ["Bonnie", "Ortiz", "bortiz1@example.com", "Female", "197.54.209.129"]])
      = Except.ok [⟨"example.com", 1⟩] := by decide

/-! Lemmas characterising the regex matcher. -/

/-- The local character class does not contain the separator. -/
theorem inLocalClass_ne_at {c : Char} (h : inLocalClass c = true) : c ≠ '@' := by
  rintro rfl
  exact absurd h (by decide)

/-- The domain character class does not contain the separator. -/
theorem inDomainClass_ne_at {c : Char} (h : inDomainClass c = true) : c ≠ '@' := by
  rintro rfl
  exact absurd h (by decide)

/-- A letter is not the separator. -/
theorem isAlpha_ne_at {c : Char} (h : c.isAlpha = true) : c ≠ '@' := by
  rintro rfl
  exact absurd h (by decide)

/-- Characterisation of `matchDomainEnd`: it accepts exactly the strings made
of domain-class characters, a dot, then at least two letters to the end. -/
theorem matchDomainEnd_iff (cs : List Char) :
    matchDomainEnd cs = true ↔
      ∃ p t, cs = p ++ '.' :: t ∧ p.all inDomainClass = true ∧
        2 ≤ t.length ∧ t.all Char.isAlpha = true := by
  induction cs with
  | nil =>
    constructor
    · intro h
      exact absurd h (by decide)
    · rintro ⟨p, t, hcs, -⟩
      exact absurd hcs (by simp)
  | cons c rest ih =>
    simp only [matchDomainEnd, Bool.or_eq_true, Bool.and_eq_true, beq_iff_eq,
      decide_eq_true_eq, ih]
    constructor
    · rintro (⟨⟨rfl, hlen⟩, halpha⟩ | ⟨hc, p, t, rfl, hp, hlen, halpha⟩)
      · exact ⟨[], rest, rfl, rfl, hlen, halpha⟩
      · exact ⟨c :: p, t, rfl, by simp [hc, hp], hlen, halpha⟩
    · rintro ⟨p, t, hcs, hp, hlen, halpha⟩
      cases p with
      | nil =>
        obtain ⟨rfl, rfl⟩ : c = '.' ∧ rest = t := by simpa using hcs
        exact Or.inl ⟨⟨rfl, hlen⟩, halpha⟩
      | cons a p2 =>
        obtain ⟨rfl, rfl⟩ : c = a ∧ rest = p2 ++ '.' :: t := by simpa using hcs
        have hc : inDomainClass c = true := by
          have := List.all_eq_true.mp hp c (by simp)
          simpa using this
        have hp2 : p2.all inDomainClass = true := by
          rw [List.all_eq_true] at hp ⊢
          exact fun x hx => hp x (by simp [hx])
        exact Or.inr ⟨hc, p2, t, rfl, hp2, hlen, halpha⟩

/-- Characterisation of `matchAfterAt`: it accepts exactly a nonempty run of
domain-class characters, a dot, then at least two letters to the end. -/
theorem matchAfterAt_iff (cs : List Char) :
    matchAfterAt cs = true ↔
      ∃ d t, cs = d ++ '.' :: t ∧ d ≠ [] ∧ d.all inDomainClass = true ∧
        2 ≤ t.length ∧ t.all Char.isAlpha = true := by
  cases cs with
  | nil =>
    constructor
    · intro h
      exact absurd h (by decide)
    · rintro ⟨d, t, hcs, -⟩
      exact absurd hcs (by simp)
  | cons c rest =>
    simp only [matchAfterAt, Bool.and_eq_true, matchDomainEnd_iff]
    constructor
    · rintro ⟨hc, p, t, rfl, hp, hlen, halpha⟩
      exact ⟨c :: p, t, rfl, by simp, by simp [hc, hp], hlen, halpha⟩
    · rintro ⟨d, t, hcs, hne, hd, hlen, halpha⟩
      cases d with
      | nil => exact absurd rfl hne
      | cons a d2 =>
        obtain ⟨rfl, rfl⟩ : c = a ∧ rest = d2 ++ '.' :: t := by simpa using hcs
        have hc : inDomainClass c = true := by
          have := List.all_eq_true.mp hd c (by simp)
          simpa using this
        have hd2 : d2.all inDomainClass = true := by
          rw [List.all_eq_true] at hd ⊢
          exact fun x hx => hd x (by simp [hx])
        exact ⟨hc, d2, t, rfl, hd2, hlen, halpha⟩

/-- Characterisation of `matchLocalTail`: it accepts exactly a (possibly
empty) run of local-class characters, an `@`, then a string accepted by
`matchAfterAt`. -/
theorem matchLocalTail_iff (cs : List Char) :
    matchLocalTail cs = true ↔
      ∃ l r, cs = l ++ '@' :: r ∧ l.all inLocalClass = true ∧
        matchAfterAt r = true := by
  induction cs with
  | nil =>
    constructor
    · intro h
      exact absurd h (by decide)
    · rintro ⟨l, r, hcs, -⟩
      exact absurd hcs (by simp)
  | cons c rest ih =>
    simp only [matchLocalTail, Bool.or_eq_true, Bool.and_eq_true, beq_iff_eq, ih]
    constructor
    · rintro (⟨rfl, hafter⟩ | ⟨hc, l, r, rfl, hl, hafter⟩)
      · exact ⟨[], rest, rfl, rfl, hafter⟩
      · exact ⟨c :: l, r, rfl, by simp [hc, hl], hafter⟩
    · rintro ⟨l, r, hcs, hl, hafter⟩
      cases l with
      | nil =>
        obtain ⟨rfl, rfl⟩ : c = '@' ∧ rest = r := by simpa using hcs
        exact Or.inl ⟨rfl, hafter⟩
      | cons a l2 =>
        obtain ⟨rfl, rfl⟩ : c = a ∧ rest = l2 ++ '@' :: r := by simpa using hcs
        have hc : inLocalClass c = true := by
          have := List.all_eq_true.mp hl c (by simp)
          simpa using this
        have hl2 : l2.all inLocalClass = true := by
          rw [List.all_eq_true] at hl ⊢
          exact fun x hx => hl x (by simp [hx])
        exact Or.inr ⟨hc, l2, r, rfl, hl2, hafter⟩

/-- Characterisation of `isValidEmail` in terms of `validEmailSpec`. -/
theorem isValidEmail_iff_spec (s : String) :
    isValidEmail s = true ↔ validEmailSpec s := by
  unfold isValidEmail validEmailSpec
  cases hdata : s.data with
  | nil =>
    constructor
    · intro h
      exact absurd h (by decide)
    · rintro ⟨l, d, t, hcs, hl, -⟩
      exact absurd hcs (by simp)
  | cons c rest =>
    simp only [Bool.and_eq_true, matchLocalTail_iff, matchAfterAt_iff]
    constructor
    · rintro ⟨hc, l, r, rfl, hl, d, t, rfl, hdne, hd, hlen, halpha⟩
      refine ⟨c :: l, d, t, by simp [hdata], by simp, ?_, hdne,
        List.all_eq_true.mp hd, hlen, List.all_eq_true.mp halpha⟩
      intro x hx
      rcases List.mem_cons.mp hx with rfl | hx2
      · exact hc
      · exact List.all_eq_true.mp hl x hx2
    · rintro ⟨l, d, t, hcs, hlne, hl, hdne, hd, hlen, halpha⟩
      cases l with
      | nil => exact absurd rfl hlne
      | cons a l2 =>
        obtain ⟨rfl, rfl⟩ : c = a ∧ rest = l2 ++ '@' :: (d ++ '.' :: t) := by
          simpa using hcs
        refine ⟨hl c (by simp), l2, d ++ '.' :: t, rfl, ?_, d, t, rfl, hdne,
          List.all_eq_true.mpr hd, hlen, List.all_eq_true.mpr halpha⟩
        exact List.all_eq_true.mpr fun x hx => hl x (by simp [hx])

/-! Lemmas about `splitOnChar` and `extractEmailDomain`. -/

/-- Splitting a separator-free string yields that one chunk. -/
theorem splitOnChar_of_not_mem {sep : Char} {cs : List Char} (h : sep ∉ cs) :
    splitOnChar sep cs = [cs] := by
  induction cs with
  | nil => rfl
  | cons c rest ih =>
    have hc : (c == sep) = false := by
      simp only [beq_eq_false_iff_ne]
      rintro rfl
      exact h (by simp)
    have hrest : sep ∉ rest := fun hr => h (by simp [hr])
    simp [splitOnChar, hc, ih hrest]

/-- Splitting a string with exactly one separator yields exactly the part
before it and the part after it. -/
theorem splitOnChar_single_sep {sep : Char} {l r : List Char}
    (hl : sep ∉ l) (hr : sep ∉ r) :
    splitOnChar sep (l ++ sep :: r) = [l, r] := by
  induction l with
  | nil => simp [splitOnChar, splitOnChar_of_not_mem hr]
  | cons c l2 ih =>
    have hc : (c == sep) = false := by
      simp only [beq_eq_false_iff_ne]
      rintro rfl
      exact hl (by simp)
    have hl2 : sep ∉ l2 := fun hm => hl (by simp [hm])
    simp [splitOnChar, hc, ih hl2]

/-- A validator-accepted string decomposes as local part, one `@`, and a
separator-free domain part. -/
theorem valid_decomposition {s : String} (h : isValidEmail s = true) :
    ∃ l d : List Char, s.data = l ++ '@' :: d ∧ '@' ∉ l ∧ '@' ∉ d := by
  obtain ⟨l, d, t, hdata, -, hl, -, hd, -, halpha⟩ := (isValidEmail_iff_spec s).mp h
  refine ⟨l, d ++ '.' :: t, hdata, fun hm => ?_, fun hm => ?_⟩
  · exact inLocalClass_ne_at (hl _ hm) rfl
  · rcases List.mem_append.mp hm with hm2 | hm2
    · exact inDomainClass_ne_at (hd _ hm2) rfl
    · rcases List.mem_cons.mp hm2 with heq | hm3
      · exact absurd heq.symm (by decide)
      · exact isAlpha_ne_at (halpha _ hm3) rfl

/-- On a string whose characters decompose around a single `@`,
`extractEmailDomain` returns the part after the `@`. -/
theorem extractEmailDomain_eq_ok {s : String} {l d : List Char}
    (hdata : s.data = l ++ '@' :: d) (hl : '@' ∉ l) (hd : '@' ∉ d) :
    extractEmailDomain s = Except.ok (String.mk d) := by
  unfold extractEmailDomain
  rw [hdata, splitOnChar_single_sep hl hd]

/-- A validator-accepted string always has a successfully extracted domain. -/
theorem extract_ok_of_valid {s : String} (h : isValidEmail s = true) :
    ∃ d, extractEmailDomain s = Except.ok d := by
  obtain ⟨l, d, hdata, hl, hd⟩ := valid_decomposition h
  exact ⟨String.mk d, extractEmailDomain_eq_ok hdata hl hd⟩

/-- A validator-accepted string contains exactly one `@`. -/
theorem count_at_of_valid {s : String} (h : isValidEmail s = true) :
    s.data.count '@' = 1 := by
  obtain ⟨l, d, hdata, hl, hd⟩ := valid_decomposition h
  rw [hdata, List.count_append, List.count_cons]
  rw [List.count_eq_zero.mpr hl, List.count_eq_zero.mpr hd]
  simp

/-! Lemmas about the aggregate map and the producer stage. -/

/-- Incrementing one key raises the sum of the map values by one. -/
theorem sumVals_incrCount (m : List (String × Nat)) (k : String) :
    sumVals (incrCount m k) = sumVals m + 1 := by
  induction m with
  | nil => simp [incrCount, sumVals]
  | cons kv rest ih =>
    obtain ⟨k2, v⟩ := kv
    by_cases h : (k2 == k) = true
    · simp [incrCount, h, sumVals]
      omega
    · simp only [incrCount, Bool.not_eq_true] at h
      simp [incrCount, h, sumVals] at ih ⊢
      omega

/-- Aggregating emails that are all validator-accepted raises the sum of the
map values by the number of emails. -/
theorem sumVals_aggregateDomains (emails : List String) (m : List (String × Nat))
    (h : ∀ e ∈ emails, isValidEmail e = true) :
    sumVals (aggregateDomains emails m) = sumVals m + emails.length := by
  induction emails generalizing m with
  | nil => simp [aggregateDomains]
  | cons e rest ih =>
    obtain ⟨d, hd⟩ := extract_ok_of_valid (h e (by simp))
    have hrest : ∀ x ∈ rest, isValidEmail x = true := fun x hx => h x (by simp [hx])
    simp only [aggregateDomains, hd]
    rw [ih _ hrest, sumVals_incrCount]
    simp [List.length_cons]
    omega

/-- Every email the producer stage forwards was accepted by the validator. -/
theorem collectValidEmails_all_valid (emailIndex expected : Nat)
    (rows : List (Except String (List String))) :
    ∀ e ∈ collectValidEmails emailIndex expected rows, isValidEmail e = true := by
  induction rows with
  | nil => simp [collectValidEmails]
  | cons raw rest ih =>
    intro e he
    cases hr : readerRead expected raw with
    | error msg =>
      simp only [collectValidEmails, hr] at he
      exact ih e he
    | ok record =>
      simp only [collectValidEmails, hr] at he
      by_cases hv : isValidEmail (record.getD emailIndex "") = true
      · rw [if_pos hv] at he
        rcases List.mem_cons.mp he with rfl | he2
        · exact hv
        · exact ih e he2
      · rw [if_neg hv] at he
        exact ih e he

/-- The number of emails the producer stage forwards is the number of data
rows whose target field passes the validator. -/
theorem collectValidEmails_length (emailIndex expected : Nat)
    (rows : List (Except String (List String))) :
    (collectValidEmails emailIndex expected rows).length
      = countValidRows emailIndex expected rows := by
  induction rows with
  | nil => simp [collectValidEmails, countValidRows]
  | cons raw rest ih =>
    cases hr : readerRead expected raw with
    | error msg =>
      have hrow : rowHasValidEmail emailIndex expected raw = false := by
        simp [rowHasValidEmail, hr]
      simp [collectValidEmails, countValidRows, List.filter_cons, hr, hrow] at ih ⊢
      exact ih
    | ok record =>
      have hrow : rowHasValidEmail emailIndex expected raw
          = isValidEmail (record.getD emailIndex "") := by
        simp [rowHasValidEmail, hr]
      have hcollect : collectValidEmails emailIndex expected (raw :: rest) =
          if isValidEmail (record.getD emailIndex "") = true then
            record.getD emailIndex "" :: collectValidEmails emailIndex expected rest
          else collectValidEmails emailIndex expected rest := by
        simp only [collectValidEmails, hr]
      have hcount : countValidRows emailIndex expected (raw :: rest) =
          if rowHasValidEmail emailIndex expected raw = true then
            countValidRows emailIndex expected rest + 1
          else countValidRows emailIndex expected rest := by
        simp only [countValidRows, List.filter_cons]
        split
        · simp
        · rfl
      rw [hcollect, hcount, hrow]
      by_cases hv : isValidEmail (record.getD emailIndex "") = true
      · rw [if_pos hv, if_pos hv]
        simp [ih]
      · rw [if_neg hv, if_neg hv]
        exact ih

/-- The keys of the aggregate map after an increment: unchanged when the key
was present, the key appended otherwise. -/
theorem keys_incrCount (m : List (String × Nat)) (k : String) :
    (incrCount m k).map Prod.fst
      = if k ∈ m.map Prod.fst then m.map Prod.fst else m.map Prod.fst ++ [k] := by
  induction m with
  | nil => simp [incrCount]
  | cons kv rest ih =>
    obtain ⟨k2, v⟩ := kv
    by_cases h : (k2 == k) = true
    · have : k2 = k := by simpa using h
      subst this
      simp [incrCount, h]
    · have hne : k2 ≠ k := by simpa using h
      simp only [incrCount, if_neg h]
      by_cases hmem : k ∈ rest.map Prod.fst
      · simp [ih, hmem, hne, Ne.symm hne]
      · simp [ih, hmem, hne, Ne.symm hne]

/-- Incrementing preserves distinctness of the aggregate map keys. -/
theorem nodup_keys_incrCount {m : List (String × Nat)} (k : String)
    (h : (m.map Prod.fst).Nodup) : ((incrCount m k).map Prod.fst).Nodup := by
  rw [keys_incrCount]
  by_cases hmem : k ∈ m.map Prod.fst
  · simpa [hmem] using h
  · simp only [if_neg hmem]
    simpa [List.nodup_append, hmem] using h

/-- Aggregation preserves distinctness of the aggregate map keys. -/
theorem nodup_keys_aggregateDomains (emails : List String)
    (m : List (String × Nat)) (h : (m.map Prod.fst).Nodup) :
    ((aggregateDomains emails m).map Prod.fst).Nodup := by
  induction emails generalizing m with
  | nil => simpa [aggregateDomains] using h
  | cons e rest ih =>
    simp only [aggregateDomains]
    cases hx : extractEmailDomain e with
    | error msg => exact ih m h
    | ok d => exact ih _ (nodup_keys_incrCount d h)

/-! Lemmas about the ranking stage. -/

/-- The sorted output is a permutation of the aggregate map entries. -/
theorem sortEmailDomainsByCount_perm (m : List (String × Nat)) :
    (sortEmailDomainsByCount m).Perm
      (m.map fun kv => { Domain := kv.1, CustomerCount := kv.2 }) :=
  List.perm_insertionSort countDescOrder _

/-- Sorting does not change the sum of the counts. -/
theorem sumCounts_sortEmailDomainsByCount (m : List (String × Nat)) :
    sumCounts (sortEmailDomainsByCount m) = sumVals m := by
  unfold sumCounts sumVals
  refine ((sortEmailDomainsByCount_perm m).map emailDomain.CustomerCount).sum_eq.trans ?_
  simp [List.map_map]
  rfl

/-- The domains of the sorted output are a permutation of the aggregate map
keys. -/
theorem domains_sortEmailDomainsByCount_perm (m : List (String × Nat)) :
    ((sortEmailDomainsByCount m).map emailDomain.Domain).Perm (m.map Prod.fst) := by
  refine ((sortEmailDomainsByCount_perm m).map emailDomain.Domain).trans ?_
  rw [List.map_map]
  exact List.Perm.refl _

/-- The sorted output is descending in customer count. -/
theorem sorted_sortEmailDomainsByCount (m : List (String × Nat)) :
    (sortEmailDomainsByCount m).Pairwise countDescOrder :=
  List.sorted_insertionSort countDescOrder _

/-! Lemmas about `indexOf` and the reader. -/

/-- The helper either reports absence or an index past its accumulator and
within the slice. -/
theorem indexOfAux_bound (value : String) (slice : List String) (i : Nat) :
    indexOfAux value slice i = -1
      ∨ ∃ j, j < slice.length ∧ indexOfAux value slice i = ((i + j : Nat) : Int) := by
  induction slice generalizing i with
  | nil => exact Or.inl rfl
  | cons v rest ih =>
    by_cases h : (v == value) = true
    · refine Or.inr ⟨0, by simp, ?_⟩
      simp [indexOfAux, h]
    · rcases ih (i + 1) with h2 | ⟨j, hj, h2⟩
      · refine Or.inl ?_
        simpa [indexOfAux, h] using h2
      · refine Or.inr ⟨j + 1, by simpa using Nat.succ_lt_succ hj, ?_⟩
        rw [show i + (j + 1) = (i + 1) + j by omega]
        simpa [indexOfAux, h] using h2

/-- When `indexOf` finds the field, the found index is within the header. -/
theorem indexOf_toNat_lt {slice : List String} {value : String}
    (h : indexOf slice value ≠ -1) :
    (indexOf slice value).toNat < slice.length := by
  rcases indexOfAux_bound value slice 0 with h2 | ⟨j, hj, h2⟩
  · exact absurd h2 h
  · unfold indexOf
    rw [h2]
    simpa using hj

/-- A successful `readerRead` returns a record whose field count equals the
expected one. -/
theorem readerRead_ok_length {expected : Nat} {raw : Except String (List String)}
    {record : List String} (h : readerRead expected raw = Except.ok record) :
    record.length = expected := by
  cases raw with
  | error e => exact absurd h (by simp [readerRead])
  | ok record2 =>
    by_cases hlen : record2.length = expected
    · have : record2 = record := by simpa [readerRead, hlen] using h
      rw [← this]
      exact hlen
    · exact absurd h (by simp [readerRead, hlen])

/-- Shape of every successful `GetDomainCounts` run on a readable header: the
field was found and the result is the ranked aggregate of the two-stage
pipeline. -/
theorem getDomainCounts_ok_shape {p n : String} {fileHeaders : List String}
    {rows : List (Except String (List String))} {res : List emailDomain}
    (h : GetDomainCounts ⟨p, n⟩ (Except.ok (Except.ok fileHeaders :: rows))
      = Except.ok res) :
    indexOf fileHeaders n ≠ -1 ∧
    res = sortEmailDomainsByCount (aggregateDomains
      (collectValidEmails (indexOf fileHeaders n).toNat fileHeaders.length rows) []) := by
  by_cases hidx : indexOf fileHeaders n = -1
  · exact absurd h (by simp [GetDomainCounts, hidx])
  · refine ⟨hidx, ?_⟩
    have := h
    simp only [GetDomainCounts, if_neg hidx] at this
    exact (Except.ok.injEq _ _).mp this.symm

/-! Lemmas about the error messages of `NewCustomerImporter`. -/

/-- The bad-extension message differs from the missing-file message. -/
theorem errNotCsv_ne_errNoFile (p : String) : errNotCsv p ≠ errNoFile p := by
  intro h
  have hlen := congrArg String.length h
  simp only [errNotCsv, errNoFile, String.length_append] at hlen
  rw [show ("invalid file path: " : String).length = 19 from by decide,
    show (", expecting a '.csv' file" : String).length = 25 from by decide,
    show ("the file does not exist at the specified path: " : String).length = 47
      from by decide] at hlen
  omega

/-- The bad-extension message differs from the empty-field message. -/
theorem errNotCsv_ne_errEmptyField (p : String) : errNotCsv p ≠ errEmptyField := by
  intro h
  have hlen := congrArg String.length h
  simp only [errNotCsv, errEmptyField, String.length_append] at hlen
  rw [show ("invalid file path: " : String).length = 19 from by decide,
    show (", expecting a '.csv' file" : String).length = 25 from by decide,
    show ("the email field name is empty" : String).length = 29 from by decide] at hlen
  omega

/-- The missing-file message differs from the empty-field message. -/
theorem errNoFile_ne_errEmptyField (p : String) : errNoFile p ≠ errEmptyField := by
  intro h
  have hlen := congrArg String.length h
  simp only [errNoFile, errEmptyField, String.length_append] at hlen
  rw [show ("the file does not exist at the specified path: " : String).length = 47
      from by decide,
    show ("the email field name is empty" : String).length = 29 from by decide] at hlen
  omega

/-! The claim theorems. -/

/-- C4: `isValidEmail` returns true exactly on strings made of one-or-more
local-class characters, a single `@`, one-or-more domain-class characters, a
literal dot, then two-or-more letters; in particular any string whose `@`
count differs from one is rejected. -/
theorem claim_C4_validator_pattern (s : String) :
    (isValidEmail s = true ↔ validEmailSpec s) ∧
    (s.data.count '@' ≠ 1 → isValidEmail s = false) := by
  refine ⟨isValidEmail_iff_spec s, ?_⟩
  intro hcount
  cases hval : isValidEmail s with
  | false => rfl
  | true => exact absurd (count_at_of_valid hval) hcount

theorem claim_C4_witness :
    isValidEmail "a@b@c.co" = false ∧ validEmailSpec "bortiz1@example.com" :=
  ⟨(claim_C4_validator_pattern "a@b@c.co").2 (by decide),
   (claim_C4_validator_pattern "bortiz1@example.com").1.mp (by decide)⟩

/-- C5: on every validator-accepted string, `extractEmailDomain` succeeds and
returns exactly the substring after the single `@`; its error branch is
unreachable for such inputs. -/
theorem claim_C5_extract_after_validation (s : String) (h : isValidEmail s = true) :
    ∃ l d : List Char, s.data = l ++ '@' :: d ∧ '@' ∉ l ∧ '@' ∉ d ∧
      extractEmailDomain s = Except.ok (String.mk d) := by
  obtain ⟨l, d, hdata, hl, hd⟩ := valid_decomposition h
  exact ⟨l, d, hdata, hl, hd, extractEmailDomain_eq_ok hdata hl hd⟩

theorem claim_C5_witness :
    isValidEmail "bortiz1@example.com" = true ∧
    ∃ l d : List Char, ("bortiz1@example.com" : String).data = l ++ '@' :: d ∧
      '@' ∉ l ∧ '@' ∉ d ∧
      extractEmailDomain "bortiz1@example.com" = Except.ok (String.mk d) :=
  ⟨by decide, claim_C5_extract_after_validation "bortiz1@example.com" (by decide)⟩

/-- C1: in every successful `GetDomainCounts` run the sum of the returned
counts equals the number of data rows whose target field holds a
validator-accepted string. -/
theorem claim_C1_sum_counts (p n : String) (fileHeaders : List String)
    (rows : List (Except String (List String))) (res : List emailDomain)
    (h : GetDomainCounts ⟨p, n⟩ (Except.ok (Except.ok fileHeaders :: rows))
      = Except.ok res) :
    sumCounts res
      = countValidRows (indexOf fileHeaders n).toNat fileHeaders.length rows := by
  obtain ⟨-, rfl⟩ := getDomainCounts_ok_shape h
  rw [sumCounts_sortEmailDomainsByCount,
    sumVals_aggregateDomains _ _ (collectValidEmails_all_valid _ _ _),
    collectValidEmails_length]
  simp [sumVals]

theorem claim_C1_witness :
    sumCounts [⟨"example.com", 1⟩]
      = countValidRows
          (indexOf ["first_name", "last_name", "email", "gender", "ip_address"]
            "email").toNat
          (["first_name", "last_name", "email", "gender", "ip_address"] :
            List String).length
          [Except.ok ["Mildred", "Hernandez", "invalid_email", "Female", "38.194.51.128"],
           Except.ok ["Bonnie", "Ortiz", "bortiz1@example.com", "Female", "197.54.209.129"]] :=
  claim_C1_sum_counts "customers.csv" "email"
    ["first_name", "last_name", "email", "gender", "ip_address"]
    [Except.ok ["Mildred", "Hernandez", "invalid_email", "Female", "38.194.51.128"],
     Except.ok ["Bonnie", "Ortiz", "bortiz1@example.com", "Female", "197.54.209.129"]]
    [⟨"example.com", 1⟩] (by decide)

/-- C2: `sortEmailDomainsByCount` always produces a sequence descending in
customer count, and hence so is every successful `GetDomainCounts` result. -/
theorem claim_C2_sorted_descending :
    (∀ m : List (String × Nat), (sortEmailDomainsByCount m).Pairwise countDescOrder) ∧
    (∀ (p n : String) (fileHeaders : List String)
      (rows : List (Except String (List String))) (res : List emailDomain),
      GetDomainCounts ⟨p, n⟩ (Except.ok (Except.ok fileHeaders :: rows))
        = Except.ok res →
      res.Pairwise countDescOrder) := by
  refine ⟨sorted_sortEmailDomainsByCount, ?_⟩
  intro p n fileHeaders rows res h
  obtain ⟨-, rfl⟩ := getDomainCounts_ok_shape h
  exact sorted_sortEmailDomainsByCount _

theorem claim_C2_witness :
    ([⟨"example.com", 1⟩] : List emailDomain).Pairwise countDescOrder :=
  claim_C2_sorted_descending.2 "customers.csv" "email"
    ["first_name", "last_name", "email", "gender", "ip_address"]
    [Except.ok ["Mildred", "Hernandez", "invalid_email", "Female", "38.194.51.128"],
     Except.ok ["Bonnie", "Ortiz", "bortiz1@example.com", "Female", "197.54.209.129"]]
    [⟨"example.com", 1⟩] (by decide)

/-- C3: in every successful `GetDomainCounts` run no domain appears twice in
the result, and the result's domains are exactly the keys of the aggregate
map, up to order. -/
theorem claim_C3_no_duplicate_domains (p n : String) (fileHeaders : List String)
    (rows : List (Except String (List String))) (res : List emailDomain)
    (h : GetDomainCounts ⟨p, n⟩ (Except.ok (Except.ok fileHeaders :: rows))
      = Except.ok res) :
    (res.map emailDomain.Domain).Nodup ∧
    (res.map emailDomain.Domain).Perm
      ((aggregateDomains
        (collectValidEmails (indexOf fileHeaders n).toNat fileHeaders.length rows)
        []).map Prod.fst) := by
  obtain ⟨-, rfl⟩ := getDomainCounts_ok_shape h
  refine ⟨?_, domains_sortEmailDomainsByCount_perm _⟩
  have hnd := nodup_keys_aggregateDomains
    (collectValidEmails (indexOf fileHeaders n).toNat fileHeaders.length rows) []
    (by simp)
  exact ((domains_sortEmailDomainsByCount_perm _).nodup_iff).mpr hnd

theorem claim_C3_witness :
    (([⟨"example.com", 1⟩] : List emailDomain).map emailDomain.Domain).Nodup ∧
    (([⟨"example.com", 1⟩] : List emailDomain).map emailDomain.Domain).Perm
      ((aggregateDomains
        (collectValidEmails
          (indexOf ["first_name", "last_name", "email", "gender", "ip_address"]
            "email").toNat
          (["first_name", "last_name", "email", "gender", "ip_address"] :
            List String).length
          [Except.ok ["Mildred", "Hernandez", "invalid_email", "Female", "38.194.51.128"],
           Except.ok ["Bonnie", "Ortiz", "bortiz1@example.com", "Female", "197.54.209.129"]])
        []).map Prod.fst) :=
  claim_C3_no_duplicate_domains "customers.csv" "email"
    ["first_name", "last_name", "email", "gender", "ip_address"]
    [Except.ok ["Mildred", "Hernandez", "invalid_email", "Female", "38.194.51.128"],
     Except.ok ["Bonnie", "Ortiz", "bortiz1@example.com", "Female", "197.54.209.129"]]
    [⟨"example.com", 1⟩] (by decide)

/-- C6: the constructor fails with a distinct, descriptive error for a
non-`.csv` path, a missing file, and an empty field name, and otherwise
returns the configured importer; its type has no access to the file rows, so
none is read. -/
theorem claim_C6_constructor_errors (fileExists : String → Bool) (p n : String) :
    (hasSuffix p ".csv" = false →
      NewCustomerImporter fileExists p n = Except.error (errNotCsv p)) ∧
    (hasSuffix p ".csv" = true → fileExists p = false →
      NewCustomerImporter fileExists p n = Except.error (errNoFile p)) ∧
    (hasSuffix p ".csv" = true → fileExists p = true → n = "" →
      NewCustomerImporter fileExists p n = Except.error errEmptyField) ∧
    (hasSuffix p ".csv" = true → fileExists p = true → n ≠ "" →
      NewCustomerImporter fileExists p n = Except.ok ⟨p, n⟩) ∧
    errNotCsv p ≠ errNoFile p ∧ errNotCsv p ≠ errEmptyField ∧
    errNoFile p ≠ errEmptyField := by
  refine ⟨?_, ?_, ?_, ?_, errNotCsv_ne_errNoFile p, errNotCsv_ne_errEmptyField p,
    errNoFile_ne_errEmptyField p⟩
  · intro h1
    simp [NewCustomerImporter, h1]
  · intro h1 h2
    simp [NewCustomerImporter, h1, h2]
  · intro h1 h2 h3
    simp [NewCustomerImporter, h1, h2, h3]
  · intro h1 h2 h3
    simp [NewCustomerImporter, h1, h2, h3]

theorem claim_C6_witness :
    NewCustomerImporter (fun _ => true) "customers.csv" "email"
        = Except.ok ⟨"customers.csv", "email"⟩ ∧
    NewCustomerImporter (fun _ => true) "invalid.txt" "email"
        = Except.error (errNotCsv "invalid.txt") ∧
    NewCustomerImporter (fun _ => false) "nonexistent.csv" "email"
        = Except.error (errNoFile "nonexistent.csv") ∧
    NewCustomerImporter (fun _ => true) "customers.csv" ""
        = Except.error errEmptyField :=
  ⟨(claim_C6_constructor_errors (fun _ => true) "customers.csv" "email").2.2.2.1
      (by decide) rfl (by decide),
   (claim_C6_constructor_errors (fun _ => true) "invalid.txt" "email").1 (by decide),
   (claim_C6_constructor_errors (fun _ => false) "nonexistent.csv" "email").2.1
      (by decide) rfl,
   (claim_C6_constructor_errors (fun _ => true) "customers.csv" "").2.2.1
      (by decide) rfl rfl⟩

/-- C7: a file with just a header row containing the configured field yields
an empty result and no error. -/
theorem claim_C7_header_only (p n : String) (fileHeaders : List String)
    (h : indexOf fileHeaders n ≠ -1) :
    GetDomainCounts ⟨p, n⟩ (Except.ok [Except.ok fileHeaders]) = Except.ok [] := by
  simp only [GetDomainCounts, if_neg h]
  rfl

theorem claim_C7_witness :
    GetDomainCounts ⟨"customers.csv", "email"⟩
      (Except.ok [Except.ok ["first_name", "last_name", "email", "gender", "ip_address"]])
      = Except.ok [] :=
  claim_C7_header_only "customers.csv" "email"
    ["first_name", "last_name", "email", "gender", "ip_address"] (by decide)

/-- Removing a row that fails the read or the validation does not change the
emails the producer stage forwards. -/
theorem collectValidEmails_skip_bad (emailIndex expected : Nat)
    (pre post : List (Except String (List String)))
    (badRow : Except String (List String))
    (hbad : ∀ record, readerRead expected badRow = Except.ok record →
      isValidEmail (record.getD emailIndex "") = false) :
    collectValidEmails emailIndex expected (pre ++ badRow :: post)
      = collectValidEmails emailIndex expected (pre ++ post) := by
  induction pre with
  | nil =>
    simp only [List.nil_append]
    cases hr : readerRead expected badRow with
    | error msg => simp only [collectValidEmails, hr]
    | ok record =>
      have hv := hbad record hr
      simp only [collectValidEmails, hr, hv]
      simp
  | cons r pre2 ih =>
    simp only [List.cons_append]
    cases hr : readerRead expected r with
    | error msg =>
      simp only [collectValidEmails, hr]
      exact ih
    | ok record =>
      simp only [collectValidEmails, hr]
      by_cases hv : isValidEmail (record.getD emailIndex "") = true
      · rw [if_pos hv, if_pos hv, ih]
      · rw [if_neg hv, if_neg hv]
        exact ih

/-- C8: row-level failures never abort a run: when the header is readable and
contains the field, the run always succeeds; a row that fails to read or
whose field fails validation can be removed without changing the outcome; and
an email whose extraction fails is skipped by the aggregation stage. -/
theorem claim_C8_row_failures_nonfatal (p n : String) (fileHeaders : List String)
    (rows : List (Except String (List String)))
    (hidx : indexOf fileHeaders n ≠ -1) :
    (∃ res, GetDomainCounts ⟨p, n⟩ (Except.ok (Except.ok fileHeaders :: rows))
      = Except.ok res) ∧
    (∀ pre post badRow, rows = pre ++ badRow :: post →
      (∀ record, readerRead fileHeaders.length badRow = Except.ok record →
        isValidEmail (record.getD (indexOf fileHeaders n).toNat "") = false) →
      GetDomainCounts ⟨p, n⟩ (Except.ok (Except.ok fileHeaders :: rows))
        = GetDomainCounts ⟨p, n⟩ (Except.ok (Except.ok fileHeaders :: (pre ++ post)))) ∧
    (∀ e emails m, (extractEmailDomain e).isOk = false →
      aggregateDomains (e :: emails) m = aggregateDomains emails m) := by
  refine ⟨⟨sortEmailDomainsByCount (aggregateDomains
    (collectValidEmails (indexOf fileHeaders n).toNat fileHeaders.length rows) []),
    by simp only [GetDomainCounts, if_neg hidx]⟩, ?_, ?_⟩
  · intro pre post badRow hrows hbad
    subst hrows
    simp only [GetDomainCounts, if_neg hidx]
    rw [collectValidEmails_skip_bad _ _ _ _ _ hbad]
  · intro e emails m hx
    cases h2 : extractEmailDomain e with
    | error msg => simp only [aggregateDomains, h2]
    | ok d =>
      rw [h2] at hx
      simp [Except.isOk, Except.toBool] at hx

theorem claim_C8_witness :
    GetDomainCounts ⟨"customers.csv", "email"⟩
        (Except.ok [Except.ok ["email"], Except.error "bad row",
          Except.ok ["a@b.co"]])
      = GetDomainCounts ⟨"customers.csv", "email"⟩
        (Except.ok [Except.ok ["email"], Except.ok ["a@b.co"]]) :=
  (claim_C8_row_failures_nonfatal "customers.csv" "email" ["email"]
    [Except.error "bad row", Except.ok ["a@b.co"]] (by decide)).2.1
    [] [Except.ok ["a@b.co"]] (Except.error "bad row") rfl
    (fun record hrec => by simp [readerRead] at hrec)

/-- C10: the target field of every row the reader returns without error is
accessed in range: the found index is below the record's length, so the Go
access `record[emailIndex]` cannot panic. -/
theorem claim_C10_field_access_in_range (n : String) (fileHeaders : List String)
    (raw : Except String (List String)) (record : List String)
    (hidx : indexOf fileHeaders n ≠ -1)
    (hread : readerRead fileHeaders.length raw = Except.ok record) :
    ∃ hlt : (indexOf fileHeaders n).toNat < record.length,
      record.getD (indexOf fileHeaders n).toNat ""
        = record.get ⟨(indexOf fileHeaders n).toNat, hlt⟩ := by
  have hlen := readerRead_ok_length hread
  have hlt : (indexOf fileHeaders n).toNat < record.length := by
    rw [hlen]
    exact indexOf_toNat_lt hidx
  refine ⟨hlt, ?_⟩
  rw [List.getD_eq_getElem _ _ hlt]
  simp [List.get_eq_getElem]

theorem claim_C10_witness :
    ∃ hlt : (indexOf ["first_name", "email"] "email").toNat
        < (["Ann", "a@b.co"] : List String).length,
      (["Ann", "a@b.co"] : List String).getD
          (indexOf ["first_name", "email"] "email").toNat ""
        = (["Ann", "a@b.co"] : List String).get
            ⟨(indexOf ["first_name", "email"] "email").toNat, hlt⟩ :=
  claim_C10_field_access_in_range "email" ["first_name", "email"]
    (Except.ok ["Ann", "a@b.co"]) ["Ann", "a@b.co"] (by decide) (by decide)
